import Mathlib

/-!
Verification of the fractional Brownian motion sampler
(`stochastic/continuous/fractional_brownian_motion.py`).

The file embeds the path integrator from the source
(`_sample_fractional_brownian_motion`: cumulative sum of the fractional
Gaussian noise increments, optionally prepending a leading zero) and models
the pieces living in the parent class `FractionalGaussianNoise` (not under
`src/`) from the spec: parameter validation, the autocovariance kernel
γ(k) = ½(|k+1|^{2H} − 2|k|^{2H} + |k−1|^{2H}), and the Hosking
(Durbin–Levinson) correlated Gaussian increment sampler.
-/

namespace Stochastic

/-- Error kinds of the spec: `InvalidParameter` for bad construction or
sampling parameters, `NumericalInstability` for the spectral method's
defensive eigenvalue check. -/
inductive FBMError where
  | invalidParameter
  | numericalInstability
deriving DecidableEq

/-- Process parameters: `t`, the right endpoint of the interval `[0, t]`,
and the Hurst parameter `hurst`, as stored by `__init__`. -/
structure Process where
  t : ℝ
  hurst : ℝ

/-- Modelled from the spec: the autocovariance kernel of fractional Gaussian
noise held by the parent class `FractionalGaussianNoise` (not under `src/`):
γ(k) = ½(|k+1|^{2H} − 2|k|^{2H} + |k−1|^{2H}), a pure function of the lag
`k` and the Hurst parameter. Powers are real powers (`Real.rpow`). -/
noncomputable def autocovariance (hurst : ℝ) (k : ℤ) : ℝ :=
  (1 / 2) * (|(k : ℝ) + 1| ^ (2 * hurst) - 2 * |(k : ℝ)| ^ (2 * hurst)
    + |(k : ℝ) - 1| ^ (2 * hurst))

/-- Modelled from the spec: constructor validation performed by the parent
class (not under `src/`): `hurst` must lie in the open interval (0, 1) and
`t` must be positive, otherwise construction fails with InvalidParameter. -/
noncomputable def construct (t : ℝ) (hurst : ℝ) : Except FBMError Process :=
  if 0 < hurst ∧ hurst < 1 ∧ 0 < t then Except.ok ⟨t, hurst⟩
  else Except.error FBMError.invalidParameter

/-- State of the Hosking recursion: the Durbin–Levinson coefficient vector
`phi`, the current conditional variance `v`, and the samples generated so
far, most recent first. -/
structure HoskingState where
  phi : List ℝ
  v : ℝ
  out : List ℝ

/-- Modelled from the spec: one step of the recursive conditional sampling
method (Hosking, spec §4.1 Method A; the implementation lives in the parent
class, not under `src/`). The coefficient vector is updated by the standard
Durbin–Levinson recursion, then the next sample is the conditional mean (a
weighted sum of the previous samples) plus the fresh standard normal draw
`d` scaled by the square root of the current conditional variance. -/
noncomputable def hoskingStep (hurst : ℝ) (s : HoskingState) (d : ℝ) :
    HoskingState :=
  let k : ℤ := s.phi.length + 1
  let num := autocovariance hurst k -
    (List.zipWith (fun φ j => φ * autocovariance hurst (k - 1 - j))
      s.phi (List.range s.phi.length)).sum
  let a := num / s.v
  let phi : List ℝ :=
    (List.zipWith (fun φ ψ => φ - a * ψ) s.phi s.phi.reverse) ++ [a]
  let v := s.v * (1 - a * a)
  let x := (List.zipWith (fun φ y => φ * y) phi s.out).sum + Real.sqrt v * d
  ⟨phi, v, x :: s.out⟩

/-- Modelled from the spec: the correlated Gaussian increment sampler
`_sample_fractional_gaussian_noise` of the parent class (not under `src/`),
Hosking method: the first sample is the first draw (unit conditional
variance γ(0) = 1), each further sample is produced by `hoskingStep` from
one further draw. The `draws` are the fresh independent N(0,1) inputs the
call consumes; one increment is produced per draw. -/
noncomputable def hoskingFGN (hurst : ℝ) (draws : List ℝ) : List ℝ :=
  match draws with
  | [] => []
  | d :: rest => ((rest.foldl (hoskingStep hurst) ⟨[], 1, [d]⟩).out).reverse

/-- Modelled from the spec: the parent-class sampling entry point checks the
requested increment count and fails with InvalidParameter when `n < 1`
(spec §4.1 Errors); otherwise it returns the `n` increments computed by the
Hosking recursion from the `n` fresh standard normal draws. -/
noncomputable def sampleFGN (hurst : ℝ) (n : ℤ) (draws : List ℝ) :
    Except FBMError (List ℝ) :=
  if n < 1 then Except.error FBMError.invalidParameter
  else Except.ok (hoskingFGN hurst draws)

/-- Running cumulative sum with accumulator `acc`: embeds `numpy.cumsum`,
whose element `i` is the sum of the inputs at indices `0` through `i`. -/
def cumsumFrom (acc : ℝ) : List ℝ → List ℝ
  | [] => []
  | x :: xs => (acc + x) :: cumsumFrom (acc + x) xs

/-- `fgn.cumsum()` from the source: prefix sums of the increment list. -/
def cumsum (xs : List ℝ) : List ℝ :=
  cumsumFrom 0 xs

/-- The path integrator `_sample_fractional_brownian_motion` applied to an
already-sampled increment list: cumulative sum, and when `zero` is true a
leading 0 is prepended (`np.insert(fbm, [0], 0)`). -/
def sampleFBM (fgn : List ℝ) (zero : Bool) : List ℝ :=
  let fbm := cumsum fgn
  if zero then 0 :: fbm else fbm

/-- `FractionalBrownianMotion.sample(n, zero)` from the source: sample the
fractional Gaussian noise, then integrate it into the motion path. The
fresh standard normal `draws` consumed by the noise sampler are passed
explicitly. -/
noncomputable def Process.sample (p : Process) (draws : List ℝ) (n : ℤ)
    (zero : Bool) : Except FBMError (List ℝ) :=
  (sampleFGN p.hurst n draws).map (fun fgn => sampleFBM fgn zero)

/-- Modelled from the spec: `Process.sample_increments` (spec §6, parent
class not under `src/`) returns the raw increment sequence. -/
noncomputable def Process.sampleIncrements (p : Process) (draws : List ℝ)
    (n : ℤ) : Except FBMError (List ℝ) :=
  sampleFGN p.hurst n draws

/-- Consecutive differences of a list: element `i` is `l[i+1] - l[i]`. -/
def diffs : List ℝ → List ℝ
  | x :: y :: rest => (y - x) :: diffs (y :: rest)
  | _ => []

/-- Field lookup of `str.format`: find the value bound to a field name. -/
def lookupField (subs : List (List Char × String)) (name : List Char) :
    List Char :=
  match subs with
  | [] => []
  | (k, v) :: rest => if k = name then v.data else lookupField rest name

/-- Python `str.format` restricted to the replacement fields actually used
by the source templates: outside a field (first argument `none`) characters
are copied verbatim until `\x7b` opens a field; inside a field (first
argument `some acc`, the name read so far in reverse) characters are
accumulated until `\x7d` closes the field, which is then replaced by the
value bound to its name. -/
def formatAux (subs : List (List Char × String)) :
    Option (List Char) → List Char → List Char
  | none, [] => []
  | none, c :: rest =>
      if c = '{' then formatAux subs (some []) rest
      else c :: formatAux subs none rest
  | some _, [] => []
  | some acc, c :: rest =>
      if c = '}' then lookupField subs acc.reverse ++ formatAux subs none rest
      else formatAux subs (some (c :: acc)) rest

/-- `tmpl.format(...)` on a whole string. -/
def pyFormat (tmpl : String) (subs : List (List Char × String)) : String :=
  ⟨formatAux subs none tmpl.data⟩

/-- The `__str__` template of the source. -/
def strTemplate : String :=
  "Fractional Brownian motion with Hurst {h} on [0, {t}]."

/-- The `__repr__` template of the source. -/
def reprTemplate : String :=
  "FractionalBrownianMotion(t={t}, hurst={h})"

/-- `__str__` from the source: format the summary template with the string
forms of the stored `hurst` and `t`. -/
def strOf (hurst : String) (t : String) : String :=
  pyFormat strTemplate [(['h'], hurst), (['t'], t)]

/-- `__repr__` from the source: format the constructor-style template with
the string forms of the stored `t` and `hurst`. -/
def reprOf (t : String) (hurst : String) : String :=
  pyFormat reprTemplate [(['t'], t), (['h'], hurst)]

/-! ## Lemmas about the embedded operations -/

lemma cumsumFrom_length (acc : ℝ) (xs : List ℝ) :
    (cumsumFrom acc xs).length = xs.length := by
  induction xs generalizing acc with
  | nil => rfl
  | cons x xs ih => simp [cumsumFrom, ih]

lemma cumsum_length (xs : List ℝ) : (cumsum xs).length = xs.length :=
  cumsumFrom_length 0 xs

lemma cumsumFrom_getElem (xs : List ℝ) :
    ∀ (acc : ℝ) (i : ℕ) (h : i < (cumsumFrom acc xs).length),
      (cumsumFrom acc xs)[i] = acc + (xs.take (i + 1)).sum := by
  induction xs with
  | nil => intro acc i h; simp [cumsumFrom] at h
  | cons x xs ih =>
    intro acc i h
    match i with
    | 0 => simp [cumsumFrom]
    | i + 1 =>
      have h2 : i < (cumsumFrom (acc + x) xs).length := by
        simpa [cumsumFrom] using h
      simp only [cumsumFrom, List.getElem_cons_succ]
      rw [ih (acc + x) i h2]
      simp [List.take_succ_cons, add_assoc]

lemma diffs_cons_cons (x y : ℝ) (rest : List ℝ) :
    diffs (x :: y :: rest) = (y - x) :: diffs (y :: rest) := rfl

lemma diffs_cons_cumsumFrom (xs : List ℝ) :
    ∀ a : ℝ, diffs (a :: cumsumFrom a xs) = xs := by
  induction xs with
  | nil => intro a; rfl
  | cons x xs ih =>
    intro a
    simp only [cumsumFrom, diffs_cons_cons, ih, add_sub_cancel_left]

lemma diffs_zero_cumsum (xs : List ℝ) : diffs (0 :: cumsum xs) = xs :=
  diffs_cons_cumsumFrom xs 0

lemma diffs_cumsum (xs : List ℝ) : diffs (cumsum xs) = xs.tail := by
  cases xs with
  | nil => rfl
  | cons x rest => simpa [cumsum, cumsumFrom] using diffs_cons_cumsumFrom rest (0 + x)

lemma hoskingStep_out_length (hurst : ℝ) (s : HoskingState) (d : ℝ) :
    ((hoskingStep hurst s d).out).length = s.out.length + 1 := rfl

lemma foldl_hoskingStep_out_length (hurst : ℝ) (l : List ℝ) :
    ∀ s : HoskingState,
      ((l.foldl (hoskingStep hurst) s).out).length = s.out.length + l.length := by
  induction l with
  | nil => intro s; simp
  | cons d l ih =>
    intro s
    rw [List.foldl_cons, ih (hoskingStep hurst s d), hoskingStep_out_length]
    simp [List.length_cons]
    omega

lemma hoskingFGN_length (hurst : ℝ) (draws : List ℝ) :
    (hoskingFGN hurst draws).length = draws.length := by
  cases draws with
  | nil => rfl
  | cons d rest =>
    simp [hoskingFGN, foldl_hoskingStep_out_length]
    omega

lemma autocovariance_zero (hurst : ℝ) (h0 : 0 < hurst) :
    autocovariance hurst 0 = 1 := by
  have hne : (2 : ℝ) * hurst ≠ 0 := by positivity
  simp [autocovariance, Real.one_rpow, Real.zero_rpow hne]
  norm_num

/-! ## The claims -/

/-- C1: for every increment sequence of length `n ≥ 1` produced by the
noise sampler, `sample(n, zero := false)` returns its cumulative sum:
element `i` of the path is the sum of increments 0 through `i`, and the
consecutive differences of the path are the later increments (the first
path value itself being the first increment). -/
theorem sample_path_is_cumsum (p : Process) (draws : List ℝ) (n : ℤ)
    (hn : 1 ≤ n) (hlen : draws.length = n.toNat) :
    p.sample draws n false =
      Except.ok (cumsum (hoskingFGN p.hurst draws)) ∧
    (∀ i, i < n.toNat →
      (cumsum (hoskingFGN p.hurst draws))[i]? =
        some (((hoskingFGN p.hurst draws).take (i + 1)).sum)) ∧
    diffs (cumsum (hoskingFGN p.hurst draws)) =
      (hoskingFGN p.hurst draws).tail := by
  have hnot : ¬ n < 1 := not_lt.mpr hn
  refine ⟨?_, ?_, diffs_cumsum _⟩
  · unfold Process.sample sampleFGN
    rw [if_neg hnot]
    rfl
  · intro i hi
    simp only [cumsum]
    have hig : i < (cumsumFrom 0 (hoskingFGN p.hurst draws)).length := by
      rw [cumsumFrom_length, hoskingFGN_length, hlen]; exact hi
    rw [List.getElem?_eq_getElem hig, cumsumFrom_getElem _ 0 i hig, zero_add]

theorem sample_path_is_cumsum_witness :
    Process.sample ⟨1, 1/2⟩ [1] 1 false =
      Except.ok (cumsum (hoskingFGN (1/2 : ℝ) [1])) ∧
    (cumsum (hoskingFGN (1/2 : ℝ) [1]))[0]? =
      some (((hoskingFGN (1/2 : ℝ) [1]).take 1).sum) ∧
    diffs (cumsum (hoskingFGN (1/2 : ℝ) [1])) =
      (hoskingFGN (1/2 : ℝ) [1]).tail := by
  obtain ⟨h1, h2, h3⟩ :=
    sample_path_is_cumsum ⟨1, 1/2⟩ [1] 1 (le_refl 1) rfl
  exact ⟨h1, h2 0 (by decide), h3⟩

/-- C2: for every valid Hurst parameter in (0, 1) and every `n ≥ 1`,
`sample(n, zero)` returns a sequence of length `n + 1` when `zero` is true
and of length `n` when `zero` is false. -/
theorem sample_path_length (p : Process) (h0 : 0 < p.hurst)
    (h1 : p.hurst < 1) (n : ℤ) (hn : 1 ≤ n) (draws : List ℝ)
    (hlen : draws.length = n.toNat) :
    ∃ pt pf,
      p.sample draws n true = Except.ok pt ∧ pt.length = n.toNat + 1 ∧
      p.sample draws n false = Except.ok pf ∧ pf.length = n.toNat := by
  have hnot : ¬ n < 1 := not_lt.mpr hn
  refine ⟨sampleFBM (hoskingFGN p.hurst draws) true,
    sampleFBM (hoskingFGN p.hurst draws) false, ?_, ?_, ?_, ?_⟩
  · unfold Process.sample sampleFGN
    rw [if_neg hnot]
    rfl
  · show (0 :: cumsum (hoskingFGN p.hurst draws)).length = n.toNat + 1
    simp [cumsum_length, hoskingFGN_length, hlen]
  · unfold Process.sample sampleFGN
    rw [if_neg hnot]
    rfl
  · show (cumsum (hoskingFGN p.hurst draws)).length = n.toNat
    rw [cumsum_length, hoskingFGN_length, hlen]

theorem sample_path_length_witness :
    ∃ pt pf,
      Process.sample ⟨1, 1/2⟩ [1] 1 true = Except.ok pt ∧
        pt.length = (1 : ℤ).toNat + 1 ∧
      Process.sample ⟨1, 1/2⟩ [1] 1 false = Except.ok pf ∧
        pf.length = (1 : ℤ).toNat :=
  sample_path_length ⟨1, 1/2⟩ one_half_pos one_half_lt_one 1 (le_refl 1)
    [1] rfl

/-- C3: for every valid Hurst parameter and every `n ≥ 1`, the first
element of the sequence returned by `sample(n, zero := true)` is exactly
0. -/
theorem sample_path_starts_at_zero (p : Process) (h0 : 0 < p.hurst)
    (h1 : p.hurst < 1) (n : ℤ) (hn : 1 ≤ n) (draws : List ℝ) :
    ∃ path, p.sample draws n true = Except.ok path ∧
      path.head? = some 0 := by
  have hnot : ¬ n < 1 := not_lt.mpr hn
  refine ⟨sampleFBM (hoskingFGN p.hurst draws) true, ?_, rfl⟩
  unfold Process.sample sampleFGN
  rw [if_neg hnot]
  rfl

theorem sample_path_starts_at_zero_witness :
    ∃ path, Process.sample ⟨1, 1/2⟩ [1] 1 true = Except.ok path ∧
      path.head? = some 0 :=
  sample_path_starts_at_zero ⟨1, 1/2⟩ one_half_pos one_half_lt_one 1
    (le_refl 1) [1]

/-- C4: for the same increment sequence, the path with `zero := true` is
the path with `zero := false` with a single 0 prepended at index 0, and
the zero flag never changes the consecutive-difference values of the
path. -/
theorem zero_flag_only_prepends (fgn : List ℝ) :
    sampleFBM fgn true = 0 :: sampleFBM fgn false ∧
    diffs (sampleFBM fgn true) = fgn ∧
    diffs (sampleFBM fgn false) = fgn.tail :=
  ⟨rfl, diffs_zero_cumsum fgn, diffs_cumsum fgn⟩

theorem zero_flag_only_prepends_witness :
    sampleFBM [1] true = 0 :: sampleFBM [1] false ∧
    diffs (sampleFBM [1] true) = [1] ∧
    diffs (sampleFBM [1] false) = ([1] : List ℝ).tail :=
  zero_flag_only_prepends [1]

/-- C5: for every Hurst parameter in (0, 1), the autocovariance kernel
γ(k) = ½(|k+1|^{2H} − 2|k|^{2H} + |k−1|^{2H}) satisfies γ(0) = 1. -/
theorem gamma_at_zero_eq_one (hurst : ℝ) (h0 : 0 < hurst)
    (h1 : hurst < 1) : autocovariance hurst 0 = 1 :=
  autocovariance_zero hurst h0

theorem gamma_at_zero_eq_one_witness : autocovariance (1/2 : ℝ) 0 = 1 :=
  gamma_at_zero_eq_one (1/2) one_half_pos one_half_lt_one

/-- C6: for H = 0.5 the autocovariance kernel is 0 at every lag `k ≥ 1`
and 1 at lag 0, i.e. the increments are uncorrelated (standard Brownian
motion). -/
theorem gamma_brownian_case :
    (∀ k : ℤ, 1 ≤ k → autocovariance (1/2 : ℝ) k = 0) ∧
    autocovariance (1/2 : ℝ) 0 = 1 := by
  constructor
  · intro k hk
    have h1 : (1 : ℝ) ≤ (k : ℝ) := by exact_mod_cast hk
    unfold autocovariance
    rw [abs_of_nonneg (by linarith : (0 : ℝ) ≤ (k : ℝ) + 1),
        abs_of_nonneg (by linarith : (0 : ℝ) ≤ (k : ℝ)),
        abs_of_nonneg (by linarith : (0 : ℝ) ≤ (k : ℝ) - 1)]
    norm_num [Real.rpow_one]
    ring
  · exact autocovariance_zero (1/2) one_half_pos

theorem gamma_brownian_case_witness :
    autocovariance (1/2 : ℝ) 1 = 0 ∧ autocovariance (1/2 : ℝ) 0 = 1 :=
  ⟨gamma_brownian_case.1 1 (le_refl 1), gamma_brownian_case.2⟩

/-- C7: construction fails with InvalidParameter exactly when the Hurst
parameter is outside the open interval (0, 1) or `t ≤ 0`; in particular it
fails for hurst 0, 1 and 3/2 and for t 0 and −1, and succeeds for the
defaults t = 1, hurst = 1/2. -/
theorem construct_validates :
    (∀ t hurst : ℝ,
      construct t hurst = Except.error FBMError.invalidParameter ↔
        hurst ≤ 0 ∨ 1 ≤ hurst ∨ t ≤ 0) ∧
    construct 1 0 = Except.error FBMError.invalidParameter ∧
    construct 1 1 = Except.error FBMError.invalidParameter ∧
    construct 1 (3/2) = Except.error FBMError.invalidParameter ∧
    construct 0 (1/2) = Except.error FBMError.invalidParameter ∧
    construct (-1) (1/2) = Except.error FBMError.invalidParameter ∧
    construct 1 (1/2) = Except.ok ⟨1, 1/2⟩ := by
  refine ⟨?_, ?_, ?_, ?_, ?_, ?_, ?_⟩
  · intro t hurst
    by_cases h : 0 < hurst ∧ hurst < 1 ∧ 0 < t
    · rw [construct, if_pos h]
      obtain ⟨ha, hb, hc⟩ := h
      simp only [reduceCtorEq, false_iff]
      push_neg
      exact ⟨ha, hb, hc⟩
    · rw [construct, if_neg h]
      push_neg at h
      simp only [true_iff]
      rcases le_or_lt hurst 0 with h' | h'
      · exact Or.inl h'
      rcases le_or_lt 1 hurst with h'' | h''
      · exact Or.inr (Or.inl h'')
      exact Or.inr (Or.inr (h h' h''))
  · rw [construct, if_neg (by norm_num)]
  · rw [construct, if_neg (by norm_num)]
  · rw [construct, if_neg (by norm_num)]
  · rw [construct, if_neg (by norm_num)]
  · rw [construct, if_neg (by norm_num)]
  · rw [construct, if_pos (by norm_num)]

theorem construct_validates_witness :
    construct 1 0 = Except.error FBMError.invalidParameter ∧
    construct 1 (1/2) = Except.ok ⟨1, 1/2⟩ :=
  ⟨construct_validates.2.1, construct_validates.2.2.2.2.2.2⟩

/-- C8: for every integer `n < 1` (in particular `n = 0`), sampling a path
or sampling increments fails with InvalidParameter. -/
theorem sample_rejects_nonpositive_n (p : Process) (draws : List ℝ)
    (n : ℤ) (hn : n < 1) (zero : Bool) :
    p.sample draws n zero = Except.error FBMError.invalidParameter ∧
    p.sampleIncrements draws n =
      Except.error FBMError.invalidParameter := by
  constructor
  · unfold Process.sample sampleFGN
    rw [if_pos hn]
    rfl
  · unfold Process.sampleIncrements sampleFGN
    rw [if_pos hn]

theorem sample_rejects_nonpositive_n_witness :
    Process.sample ⟨1, 1/2⟩ [] 0 true =
      Except.error FBMError.invalidParameter ∧
    Process.sampleIncrements ⟨1, 1/2⟩ [] 0 =
      Except.error FBMError.invalidParameter :=
  sample_rejects_nonpositive_n ⟨1, 1/2⟩ [] 0 (by decide) true

/-- C9: the numeric values returned by `sample` do not depend on `t`: two
processes with the same Hurst parameter, different `t`, and identical
random draws return identical sequences, for the path and for the raw
increments. -/
theorem sample_independent_of_t (p q : Process) (hh : p.hurst = q.hurst)
    (draws : List ℝ) (n : ℤ) (zero : Bool) :
    p.sample draws n zero = q.sample draws n zero ∧
    p.sampleIncrements draws n = q.sampleIncrements draws n := by
  unfold Process.sample Process.sampleIncrements
  rw [hh]
  exact ⟨rfl, rfl⟩

theorem sample_independent_of_t_witness :
    Process.sample ⟨1, 1/2⟩ [1] 1 true =
      Process.sample ⟨5, 1/2⟩ [1] 1 true ∧
    Process.sampleIncrements ⟨1, 1/2⟩ [1] 1 =
      Process.sampleIncrements ⟨5, 1/2⟩ [1] 1 :=
  sample_independent_of_t ⟨1, 1/2⟩ ⟨5, 1/2⟩ rfl [1] 1 true

/-- C10: `str(process)` is exactly the summary template with the stored
`hurst` and `t` substituted, and `repr(process)` is the constructor-style
string embedding `t` and `hurst`. -/
theorem string_representations (hurst t : String) :
    strOf hurst t =
      "Fractional Brownian motion with Hurst " ++ hurst ++ " on [0, "
        ++ t ++ "]." ∧
    reprOf t hurst =
      "FractionalBrownianMotion(t=" ++ t ++ ", hurst=" ++ hurst ++ ")" := by
  constructor
  · apply String.ext
    simp [strOf, pyFormat, strTemplate, formatAux, lookupField]
  · apply String.ext
    simp [reprOf, pyFormat, reprTemplate, formatAux, lookupField]

theorem string_representations_witness :
    strOf "0.5" "1" =
      "Fractional Brownian motion with Hurst " ++ "0.5" ++ " on [0, "
        ++ "1" ++ "]." ∧
    reprOf "1" "0.5" =
      "FractionalBrownianMotion(t=" ++ "1" ++ ", hurst=" ++ "0.5" ++ ")" :=
  string_representations "0.5" "1"

end Stochastic
